/-
Verification of the `hash_table` crate's table core against its specification.

The Rust `HashTable<K, V>` is embedded shallowly:
  * the hash map `indices_table : HashMap<K, usize>` becomes an association
    list `List (K × Nat)` with the observable map operations (lookup of the
    entry for a key, insert-or-replace, remove-entry) spelled out;
  * `values_vector : Vec<V>` becomes `List V`;
  * operations that can panic in Rust (integer division by zero in
    `rows_len`, out-of-range `Vec::insert` / `Vec::remove` / `drain`,
    exhausted value iterators) return `Option`, with `none` marking a panic;
  * `sort_by_key` (a stable sort) is modelled by a stable insertion sort on
    the same key ordering (`Option<usize>` with `None` smallest).
-/
import Mathlib

namespace HashTableVerif

/-- Ordering used by `push_row`'s `sort_by_key`: keys are compared by
`indices_table.get(k) : Option<usize>`, where `None < Some _`. -/
def slotLe : Option Nat → Option Nat → Bool
  | none, _ => true
  | some _, none => false
  | some a, some b => a ≤ b

/-- Insert `x` into a list before the first element `y` with `le x y`;
the helper of the stable insertion sort modelling Rust's stable sort. -/
def insertLe (le : α → α → Bool) (x : α) : List α → List α
  | [] => [x]
  | y :: ys => if le x y then x :: y :: ys else y :: insertLe le x ys

/-- Stable insertion sort modelling Rust's stable `sort_by_key`. -/
def insSort (le : α → α → Bool) : List α → List α
  | [] => []
  | x :: xs => insertLe le x (insSort le xs)

/-- `HashMap::get`, on the association-list model of `indices_table`. -/
def hmGet [DecidableEq K] (m : List (K × Nat)) (q : K) : Option Nat :=
  (m.find? (fun p => decide (p.1 = q))).map Prod.snd

/-- `HashMap::contains_key`. -/
def hmContains [DecidableEq K] (m : List (K × Nat)) (q : K) : Bool :=
  (hmGet m q).isSome

/-- `HashMap::insert`: replaces the value if the key is present, otherwise
adds a new entry. -/
def hmInsert [DecidableEq K] (m : List (K × Nat)) (k : K) (v : Nat) :
    List (K × Nat) :=
  if hmContains m k then m.map (fun p => if p.1 = k then (k, v) else p)
  else m ++ [(k, v)]

/-- `HashMap::remove_entry`: returns the removed entry and the remaining map. -/
def hmRemoveEntry [DecidableEq K] :
    List (K × Nat) → K → Option ((K × Nat) × List (K × Nat))
  | [], _ => none
  | p :: rest, q =>
    if p.1 = q then some (p, rest)
    else (hmRemoveEntry rest q).map (fun r => (r.1, p :: r.2))

/-- Reverse lookup of a column key by slot index, as done by the
element-wise iterators (`find_map` over the map's entries). -/
def slotKey [DecidableEq K] (m : List (K × Nat)) (i : Nat) : Option K :=
  (m.find? (fun p => decide (p.2 = i))).map Prod.fst

/-- The embedded `HashTable { indices_table, values_vector }`. -/
structure HashTable (K V : Type) where
  indices_table : List (K × Nat)
  values_vector : List V
deriving DecidableEq

variable {K V : Type}

/-- `HashTable::columns_len`. -/
def columns_len (t : HashTable K V) : Nat := t.indices_table.length

/-- Number of stored values (`values_vector.len()`). -/
def values_len (t : HashTable K V) : Nat := t.values_vector.length

/-- `HashTable::rows_len`, which divides by `columns_len`: `none` models the
division-by-zero panic of Rust's `usize` division when there are no columns. -/
def rows_len? (t : HashTable K V) : Option Nat :=
  if columns_len t = 0 then none
  else some (values_len t / columns_len t)

/-- `HashTable::row_start`: buffer index where a row starts. -/
def row_start (t : HashTable K V) (row : Nat) : Nat := columns_len t * row

/-- `HashTable::get_row`. Outer `none` models a panic (from `rows_len`);
`some none` is the documented out-of-range result; a successful result is
the row's sub-slice `values_vector[start..start+columns_len]`. -/
def get_row? (t : HashTable K V) (row : Nat) : Option (Option (List V)) :=
  match rows_len? t with
  | none => none
  | some rows =>
    if row ≥ rows then some none
    else some (some ((t.values_vector.drop (row_start t row)).take (columns_len t)))

/-- `HashTable::get_row_mut`; in the pure model it exposes the same
sub-slice as `get_row`, with the same panic/out-of-range structure. -/
def get_row_mut? (t : HashTable K V) (row : Nat) : Option (Option (List V)) :=
  match rows_len? t with
  | none => none
  | some rows =>
    if row ≥ rows then some none
    else some (some ((t.values_vector.drop (columns_len t * row)).take (columns_len t)))

/-- `HashTable::remove_row`. The source computes the drained range as
`row * rows_len() .. row * rows_len() + rows_len()` (note: `rows_len`, not
`columns_len`). Outer `none` models a panic (division by zero in `rows_len`,
or `Vec::drain` out of range); `some none` is the out-of-range row result;
success returns the drained values and the remaining table. -/
def remove_row? (t : HashTable K V) (row : Nat) :
    Option (Option (List V × HashTable K V)) :=
  match rows_len? t with
  | none => none
  | some rows =>
    if row ≥ rows then some none
    else
      let start := row * rows
      let stop := start + rows
      if stop ≤ values_len t then
        some (some ((t.values_vector.drop start).take rows,
          { t with values_vector :=
              t.values_vector.take start ++ t.values_vector.drop stop }))
      else none

/-- Lookup of a value in a `HashTableRowValueOwned` returned by
`remove_row`: the key's slot from the borrowed `indices_table` indexes the
extracted value list. -/
def rowViewGet [DecidableEq K] (m : List (K × Nat)) (vals : List V) (q : K) :
    Option V :=
  (hmGet m q).bind (fun i => vals.get? i)

/-- `HashTable::elem_index`: buffer index of element `(column, row)`. -/
def elem_index [DecidableEq K] (t : HashTable K V) (q : K) (row : Nat) :
    Option Nat :=
  (hmGet t.indices_table q).map (fun c => row_start t row + c)

/-- `HashTable::get`. -/
def get [DecidableEq K] (t : HashTable K V) (q : K) (row : Nat) : Option V :=
  (elem_index t q row).bind (fun i => t.values_vector.get? i)

/-- `HashTable::get_mut`, modelled as the buffer position it hands out
mutable access to: `Vec::get_mut` succeeds exactly when the index is in
range. -/
def get_mut_idx [DecidableEq K] (t : HashTable K V) (q : K) (row : Nat) :
    Option Nat :=
  (elem_index t q row).bind (fun i => if i < values_len t then some i else none)

/-- `HashTable::push_row`: collects the pairs, stable-sorts them by
`indices_table.get(key)` and appends the values to the buffer. -/
def push_row [DecidableEq K] (t : HashTable K V) (pairs : List (K × V)) :
    HashTable K V :=
  let sorted := insSort
    (fun a b => slotLe (hmGet t.indices_table a.1) (hmGet t.indices_table b.1))
    pairs
  { t with values_vector := t.values_vector ++ sorted.map Prod.snd }

/-- `Vec::insert`: panics (`none`) when the index exceeds the length. -/
def listInsert? (l : List V) (i : Nat) (v : V) : Option (List V) :=
  if i ≤ l.length then some (l.take i ++ v :: l.drop i) else none

/-- `Vec::remove`: panics (`none`) when the index is out of range. -/
def listRemove? (l : List V) (i : Nat) : Option (V × List V) :=
  match l.get? i with
  | none => none
  | some v => some (v, l.take i ++ l.drop (i + 1))

/-- `HashTable::insert_column`. The new key is mapped to slot
`columns_len`; for each row `i` the next iterator value is inserted at
buffer index `(i + 1) * new_column_index` — exactly as in the source.
`none` models a panic: `rows_len` division by zero, an exhausted values
iterator, or an out-of-range `Vec::insert`. -/
def insert_column? [DecidableEq K] (t : HashTable K V) (k : K) (vs : List V) :
    Option (HashTable K V) :=
  match rows_len? t with
  | none => none
  | some rows =>
    let newIdx := columns_len t
    let m1 := hmInsert t.indices_table k newIdx
    ((List.range rows).foldlM (fun buf i =>
        match vs.get? i with
        | none => none
        | some v => listInsert? buf ((i + 1) * newIdx) v)
      t.values_vector).map
      (fun buf => { indices_table := m1, values_vector := buf })

/-- `HashTable::remove_column`. `some none` is the absent-key result; outer
`none` models a panic: the `Vec::with_capacity(self.rows_len())` call after
the entry is removed divides by the new column count (zero if the removed
column was the last one), and each `Vec::remove` can be out of range. -/
def remove_column? [DecidableEq K] (t : HashTable K V) (q : K) :
    Option (Option (K × List V × HashTable K V)) :=
  match hmRemoveEntry t.indices_table q with
  | none => some none
  | some ((k, s), m1) =>
    let rows := values_len t / columns_len t
    let m2 := m1.map (fun p => if s < p.2 then (p.1, p.2 - 1) else p)
    if m2.length = 0 then none
    else
      ((List.range rows).foldlM (fun st i =>
          (listRemove? st.2 (i * m2.length + s)).map
            (fun r => (st.1 ++ [r.1], r.2)))
        (([] : List V), t.values_vector)).map
        (fun st => some (k, st.1, { indices_table := m2, values_vector := st.2 }))

/-- `HashMap::collect` from an iterator of `(key, index)` pairs. -/
def collectPairs [DecidableEq K] (l : List (K × Nat)) : List (K × Nat) :=
  l.foldl (fun m p => hmInsert m p.1 p.2) []

/-- `HashTable::from_column_iter`. Each enumerated column `(i, (key, vals))`
is length-checked against the first column, its key mapped to slot `i`, and
each enumerated value inserted at buffer index `(row + 1) * (i + 1)` — as
in the source. `none` models a panic (length mismatch, or out-of-range
`Vec::insert`). -/
def from_column_iter? [DecidableEq K] (cols : List (K × List V)) :
    Option (HashTable K V) :=
  (cols.enum.foldlM (fun st ic =>
      let i := ic.1
      let key := ic.2.1
      let cvs := ic.2.2
      let exp := st.2.2.getD cvs.length
      if cvs.length ≠ exp then none
      else
        (cvs.enum.foldlM (fun buf rv =>
            listInsert? buf ((rv.1 + 1) * (i + 1)) rv.2)
          st.2.1).map
          (fun buf => (hmInsert st.1 key i, buf, some exp)))
    (([] : List (K × Nat)), ([] : List V), (none : Option Nat))).map
    (fun st => { indices_table := st.1, values_vector := st.2.1 })

/-- `HashTable::from_column_keys_and_rows`: keys are enumerated into the
map, the rows flattened, and the remainder of the flattened length modulo
the column count is drained off the tail. `none` models the modulo-by-zero
panic when the key iterator yields no columns. -/
def from_column_keys_and_rows? [DecidableEq K] (keys : List K)
    (rows : List (List V)) : Option (HashTable K V) :=
  let m := collectPairs (keys.enum.map (fun p => (p.2, p.1)))
  let vals := rows.flatten
  if m.length = 0 then none
  else
    some { indices_table := m,
           values_vector := vals.take (vals.length - vals.length % m.length) }

/-- One step of the element-wise reverse iterator (`next`): pops a value
off the buffer tail and computes its `(column key, row)` coordinate. Outer
`none` models a panic (division by zero in `rows_len` with a non-empty
buffer); `some none` ends the iteration (empty buffer, or a failed reverse
key lookup). -/
def elemNext? [DecidableEq K] (t : HashTable K V) :
    Option (Option (((K × Nat) × V) × HashTable K V)) :=
  if t.values_vector.isEmpty then some none
  else
    match rows_len? t with
    | none => none
    | some rows =>
      let cols := columns_len t
      let row_idx := if values_len t = cols * rows then rows - 1 else rows
      match t.values_vector.getLast? with
      | none => some none
      | some v =>
        let buf := t.values_vector.dropLast
        let col_idx := buf.length % cols
        match slotKey t.indices_table col_idx with
        | none => some none
        | some k =>
          some (some (((k, row_idx), v), { t with values_vector := buf }))

/-- Running the element-wise reverse iterator to exhaustion; the fuel is
the buffer length, which bounds the number of successful steps. -/
def elemIterAux [DecidableEq K] : Nat → HashTable K V → Option (List ((K × Nat) × V))
  | 0, _ => some []
  | fuel + 1, t =>
    match elemNext? t with
    | none => none
    | some none => some []
    | some (some (it, t1)) => (elemIterAux fuel t1).map (fun l => it :: l)

/-- Full element-wise reverse iteration of a table. -/
def elemIter? [DecidableEq K] (t : HashTable K V) : Option (List ((K × Nat) × V)) :=
  elemIterAux (values_len t) t

/-- Invariant 4: no duplicate column keys. -/
def KeysNodup (m : List (K × Nat)) : Prop := (m.map Prod.fst).Nodup

/-- Invariant 2: the assigned slot indices are exactly
`{0, ..., columns_len - 1}`. -/
def SlotsContiguous (m : List (K × Nat)) : Prop :=
  (m.map Prod.snd).Perm (List.range m.length)

/-- The table invariants on the index map. -/
def Inv (t : HashTable K V) : Prop :=
  KeysNodup t.indices_table ∧ SlotsContiguous t.indices_table

instance [DecidableEq K] (m : List (K × Nat)) : Decidable (KeysNodup m) :=
  inferInstanceAs (Decidable (m.map Prod.fst).Nodup)

instance (m : List (K × Nat)) : Decidable (SlotsContiguous m) :=
  inferInstanceAs (Decidable ((m.map Prod.snd).Perm (List.range m.length)))

instance [DecidableEq K] (t : HashTable K V) : Decidable (Inv t) :=
  inferInstanceAs (Decidable (_ ∧ _))

/-- A column mutation: `insert_column` or `remove_column`. -/
inductive ColOp (K V : Type) where
  | ins (k : K) (vs : List V)
  | del (q : K)

/-- A run of column mutations in which every `insert_column` uses a key not
currently present and every operation completes without panicking
(`remove_column` of an absent key is its documented no-op failure). -/
inductive RunFresh [DecidableEq K] :
    HashTable K V → List (ColOp K V) → HashTable K V → Prop where
  | nil (t : HashTable K V) : RunFresh t [] t
  | ins (t t1 t2 : HashTable K V) (k : K) (vs : List V) (ops : List (ColOp K V)) :
      hmGet t.indices_table k = none →
      insert_column? t k vs = some t1 →
      RunFresh t1 ops t2 →
      RunFresh t (ColOp.ins k vs :: ops) t2
  | delHit (t t1 t2 : HashTable K V) (q k : K) (vals : List V)
      (ops : List (ColOp K V)) :
      remove_column? t q = some (some (k, vals, t1)) →
      RunFresh t1 ops t2 →
      RunFresh t (ColOp.del q :: ops) t2
  | delMiss (t t2 : HashTable K V) (q : K) (ops : List (ColOp K V)) :
      remove_column? t q = some none →
      RunFresh t ops t2 →
      RunFresh t (ColOp.del q :: ops) t2

/-! ### Basic lemmas about the stable sort model -/

theorem insertLe_perm (le : α → α → Bool) (x : α) (l : List α) :
    (insertLe le x l).Perm (x :: l) := by
  induction l with
  | nil => exact List.Perm.refl _
  | cons y ys ih =>
    unfold insertLe
    by_cases h : le x y
    · simp [h]
    · simp only [h, if_neg, Bool.false_eq_true, if_false]
      exact (ih.cons y).trans (List.Perm.swap x y ys)

theorem insSort_perm (le : α → α → Bool) (l : List α) :
    (insSort le l).Perm l := by
  induction l with
  | nil => exact List.Perm.refl _
  | cons x xs ih => exact (insertLe_perm le x (insSort le xs)).trans (ih.cons x)

theorem pairwise_insertLe (le : α → α → Bool)
    (htrans : ∀ a b c, le a b = true → le b c = true → le a c = true)
    (htot : ∀ a b, le a b = true ∨ le b a = true)
    (x : α) (l : List α) (h : l.Pairwise (fun a b => le a b = true)) :
    (insertLe le x l).Pairwise (fun a b => le a b = true) := by
  induction l with
  | nil => simp [insertLe]
  | cons y ys ih =>
    rw [List.pairwise_cons] at h
    obtain ⟨hy, hys⟩ := h
    unfold insertLe
    by_cases hxy : le x y = true
    · simp only [hxy, if_true]
      refine List.pairwise_cons.mpr ⟨?_, List.pairwise_cons.mpr ⟨hy, hys⟩⟩
      intro b hb
      rcases List.mem_cons.mp hb with hb | hb
      · exact hb ▸ hxy
      · exact htrans x y b hxy (hy b hb)
    · simp only [hxy, Bool.false_eq_true, if_false]
      refine List.pairwise_cons.mpr ⟨?_, ih hys⟩
      intro b hb
      have hmem := (insertLe_perm le x ys).mem_iff.mp hb
      rcases List.mem_cons.mp hmem with hb' | hb'
      · subst hb'
        rcases htot b y with hxy' | hyx
        · exact absurd hxy' hxy
        · exact hyx
      · exact hy b hb'

theorem insSort_pairwise (le : α → α → Bool)
    (htrans : ∀ a b c, le a b = true → le b c = true → le a c = true)
    (htot : ∀ a b, le a b = true ∨ le b a = true) (l : List α) :
    (insSort le l).Pairwise (fun a b => le a b = true) := by
  induction l with
  | nil => simp [insSort]
  | cons x xs ih => exact pairwise_insertLe le htrans htot x (insSort le xs) ih

/-! ### Lemmas about the association-list map -/

theorem hmGet_some_mem [DecidableEq K] {m : List (K × Nat)} {q : K} {s : Nat}
    (h : hmGet m q = some s) : ∃ p, p ∈ m ∧ p.1 = q ∧ p.2 = s := by
  unfold hmGet at h
  rcases hf : m.find? (fun p => decide (p.1 = q)) with _ | p
  · rw [hf] at h; exact absurd h (by simp)
  · rw [hf] at h
    have hpq := List.find?_some hf
    refine ⟨p, List.mem_of_find?_eq_some hf, of_decide_eq_true hpq, ?_⟩
    simpa using h

theorem hmGet_eq_none [DecidableEq K] {m : List (K × Nat)} {q : K} :
    hmGet m q = none ↔ ∀ p ∈ m, p.1 ≠ q := by
  unfold hmGet
  simp [List.find?_eq_none]

theorem hmGet_of_mem_nodup [DecidableEq K] {m : List (K × Nat)}
    (hm : KeysNodup m) {p : K × Nat} (hp : p ∈ m) : hmGet m p.1 = some p.2 := by
  induction m with
  | nil => exact absurd hp (List.not_mem_nil p)
  | cons a as ih =>
    unfold KeysNodup at hm
    rw [List.map_cons, List.nodup_cons] at hm
    rcases List.mem_cons.mp hp with hp | hp
    · subst hp
      unfold hmGet
      simp [List.find?_cons_of_pos]
    · have hne : a.1 ≠ p.1 := by
        intro he
        exact hm.1 (he ▸ List.mem_map_of_mem Prod.fst hp)
      unfold hmGet
      rw [List.find?_cons_of_neg _ (by simpa using hne)]
      exact ih hm.2 hp

theorem hmContains_append_single [DecidableEq K] (m : List (K × Nat))
    (x : K × Nat) (q : K) :
    hmContains (m ++ [x]) q = true ↔ hmContains m q = true ∨ x.1 = q := by
  induction m with
  | nil =>
    unfold hmContains hmGet
    by_cases h : x.1 = q <;> simp [h]
  | cons a as ih =>
    unfold hmContains hmGet
    by_cases h : a.1 = q
    · rw [List.cons_append, List.find?_cons_of_pos _ (by simpa using h),
        List.find?_cons_of_pos _ (by simpa using h)]
      simp [hmContains, hmGet]
    · rw [List.cons_append, List.find?_cons_of_neg _ (by simpa using h),
        List.find?_cons_of_neg _ (by simpa using h)]
      exact ih

theorem collectPairs_of_nodup [DecidableEq K] (pairs : List (K × Nat))
    (h : (pairs.map Prod.fst).Nodup) : collectPairs pairs = pairs := by
  suffices hgen : ∀ (ps : List (K × Nat)) (acc : List (K × Nat)),
      (∀ p ∈ ps, hmContains acc p.1 = false) → (ps.map Prod.fst).Nodup →
      ps.foldl (fun m p => hmInsert m p.1 p.2) acc = acc ++ ps by
    have := hgen pairs [] (fun p _ => by rfl) h
    simpa [collectPairs] using this
  intro ps
  induction ps with
  | nil => intro acc _ _; simp
  | cons a as ih =>
    intro acc hacc hnd
    rw [List.map_cons, List.nodup_cons] at hnd
    have hins : hmInsert acc a.1 a.2 = acc ++ [(a.1, a.2)] := by
      unfold hmInsert
      rw [if_neg (by simp [hacc a (List.mem_cons_self a as)])]
    have hrest : ∀ p ∈ as, hmContains (acc ++ [(a.1, a.2)]) p.1 = false := by
      intro p hp
      have h1 : hmContains acc p.1 = false := hacc p (List.mem_cons_of_mem a hp)
      have h2 : a.1 ≠ p.1 := by
        intro he
        exact hnd.1 (he ▸ List.mem_map_of_mem Prod.fst hp)
      rcases hc : hmContains (acc ++ [(a.1, a.2)]) p.1 with _ | _
      · rfl
      · rcases (hmContains_append_single acc (a.1, a.2) p.1).mp hc with h | h
        · rw [h1] at h; exact absurd h (by simp)
        · exact absurd h h2
    calc (a :: as).foldl (fun m p => hmInsert m p.1 p.2) acc
        = as.foldl (fun m p => hmInsert m p.1 p.2) (acc ++ [(a.1, a.2)]) := by
          rw [List.foldl_cons, hins]
      _ = (acc ++ [(a.1, a.2)]) ++ as := ih (acc ++ [(a.1, a.2)]) hrest hnd.2
      _ = acc ++ a :: as := by simp

theorem hmGet_enumFrom [DecidableEq K] (keys : List K) (hnd : keys.Nodup)
    (i n : Nat) (k : K) (hk : keys.get? i = some k) :
    hmGet ((List.enumFrom n keys).map (fun p => (p.2, p.1))) k = some (n + i) := by
  induction keys generalizing i n with
  | nil => exact absurd hk (by simp)
  | cons a as ih =>
    rw [List.nodup_cons] at hnd
    rw [List.enumFrom_cons, List.map_cons]
    cases i with
    | zero =>
      have hak : a = k := by simpa using hk
      subst hak
      unfold hmGet
      rw [List.find?_cons_of_pos _ (by simp)]
      rfl
    | succ j =>
      have hkas : as.get? j = some k := by simpa using hk
      have hkm : k ∈ as := by
        obtain ⟨hlt, hget⟩ := List.get?_eq_some.mp hkas
        exact hget ▸ List.get_mem as j hlt
      have hne : a ≠ k := fun he => hnd.1 (he ▸ hkm)
      unfold hmGet
      rw [List.find?_cons_of_neg _ (by simpa using hne)]
      have := ih hnd.2 j (n + 1) hkas
      rw [hmGet] at this
      rw [this]
      congr 1
      omega

/-- Claim C7: with at least one column key, all keys distinct, and total
flattened value count `N`, `from_column_keys_and_rows` succeeds and builds
a table with `columns_len = C`, `rows_len = N / C`, buffer exactly the
first `(N / C) * C` concatenated values, and element `(k_i, r)` equal to
the flattened value at `r * C + i`. -/
theorem c7_from_column_keys_and_rows_spec [DecidableEq K] (keys : List K)
    (rows : List (List V)) (hne : keys ≠ []) (hnd : keys.Nodup) :
    ∃ t : HashTable K V,
      from_column_keys_and_rows? keys rows = some t ∧
      columns_len t = keys.length ∧
      rows_len? t = some (rows.flatten.length / keys.length) ∧
      t.values_vector =
        rows.flatten.take (rows.flatten.length / keys.length * keys.length) ∧
      (∀ i k r, keys.get? i = some k →
        r < rows.flatten.length / keys.length →
        get t k r = rows.flatten.get? (r * keys.length + i)) := by
  have hpos : 0 < keys.length := List.length_pos.mpr hne
  have hmapnd : ((keys.enum.map (fun p => (p.2, p.1))).map Prod.fst).Nodup := by
    have : (keys.enum.map (fun p => (p.2, p.1))).map Prod.fst =
        keys.enum.map Prod.snd := by
      rw [List.map_map]; rfl
    rw [this, List.enum_map_snd]
    exact hnd
  have hcol : collectPairs (keys.enum.map (fun p => (p.2, p.1))) =
      keys.enum.map (fun p => (p.2, p.1)) := collectPairs_of_nodup _ hmapnd
  have hmlen : (keys.enum.map (fun p => (p.2, p.1))).length = keys.length := by
    rw [List.length_map, List.enum_length]
  have hdm := Nat.div_add_mod rows.flatten.length keys.length
  have htk0 : rows.flatten.length - rows.flatten.length % keys.length =
      keys.length * (rows.flatten.length / keys.length) := by omega
  have htk : rows.flatten.length - rows.flatten.length % keys.length =
      rows.flatten.length / keys.length * keys.length := by
    rw [htk0, Nat.mul_comm]
  refine ⟨{ indices_table := keys.enum.map (fun p => (p.2, p.1)),
            values_vector := rows.flatten.take
              (rows.flatten.length - rows.flatten.length % keys.length) }, ?_, ?_, ?_, ?_, ?_⟩
  · unfold from_column_keys_and_rows?
    simp only [hcol, hmlen]
    rw [if_neg (by omega)]
  · exact hmlen
  · unfold rows_len? columns_len values_len
    simp only [hmlen]
    rw [if_neg (by omega)]
    congr 1
    rw [List.length_take]
    have hle : rows.flatten.length - rows.flatten.length % keys.length ≤
        rows.flatten.length := by omega
    rw [min_eq_left hle, htk, Nat.mul_div_cancel _ hpos]
  · rw [htk]
  · intro i k r hik hr
    have hiC : i < keys.length := by
      obtain ⟨h, _⟩ := List.get?_eq_some.mp hik
      exact h
    have hget : hmGet (keys.enum.map (fun p => (p.2, p.1))) k = some i := by
      have := hmGet_enumFrom keys hnd i 0 k hik
      simpa [List.enum] using this
    unfold get elem_index row_start columns_len
    rw [hget]
    simp only [Option.map_some', Option.some_bind, hmlen]
    have hbound : keys.length * r + i <
        rows.flatten.length - rows.flatten.length % keys.length := by
      have h2 : keys.length * (r + 1) ≤
          keys.length * (rows.flatten.length / keys.length) :=
        Nat.mul_le_mul_left _ hr
      rw [Nat.mul_succ] at h2
      omega
    rw [List.get?_take hbound, Nat.mul_comm]

/-- Witness for C7: the spec's own example — keys `["a","b"]`, rows
`[[1,2,3],[4,5]]` — where the claim yields two rows, buffer `[1,2,3,4]`
(value 5 truncated), and elements `a:1, b:2` / `a:3, b:4`. -/
theorem c7_witness :
    ∃ t : HashTable String Nat,
      from_column_keys_and_rows? ["a","b"] [[1,2,3],[4,5]] = some t ∧
      columns_len t = (["a","b"] : List String).length ∧
      rows_len? t = some (([[1,2,3],[4,5]] : List (List Nat)).flatten.length /
        (["a","b"] : List String).length) ∧
      t.values_vector = ([[1,2,3],[4,5]] : List (List Nat)).flatten.take
        (([[1,2,3],[4,5]] : List (List Nat)).flatten.length /
          (["a","b"] : List String).length * (["a","b"] : List String).length) ∧
      (∀ i k r, (["a","b"] : List String).get? i = some k →
        r < ([[1,2,3],[4,5]] : List (List Nat)).flatten.length /
          (["a","b"] : List String).length →
        get t k r = ([[1,2,3],[4,5]] : List (List Nat)).flatten.get?
          (r * (["a","b"] : List String).length + i)) :=
  c7_from_column_keys_and_rows_spec ["a","b"] [[1,2,3],[4,5]]
    (by decide) (by decide)

/-! ### Lemmas for the element-wise reverse iterator -/

theorem columns_len_mk (m : List (K × Nat)) (vs : List V) :
    columns_len (HashTable.mk m vs) = m.length := rfl

theorem values_len_mk (m : List (K × Nat)) (vs : List V) :
    values_len (HashTable.mk m vs) = vs.length := rfl

theorem row_idx_eq (L C : Nat) (hC : 0 < C) (hL : 0 < L) :
    (if L = C * (L / C) then L / C - 1 else L / C) = (L - 1) / C := by
  have h1 : L - 1 + 1 = L := by omega
  have h2 := Nat.succ_div (L - 1) C
  rw [h1] at h2
  by_cases hdvd : C ∣ L
  · rw [if_pos (Nat.mul_div_cancel' hdvd).symm]
    rw [if_pos hdvd] at h2
    rw [h2, Nat.add_sub_cancel]
  · have hne : L ≠ C * (L / C) := by
      intro h
      exact hdvd ⟨L / C, h⟩
    rw [if_neg hne]
    rw [if_neg hdvd] at h2
    omega

theorem elemNext_concat [DecidableEq K] (m : List (K × Nat)) (vs : List V)
    (v : V) (k : K) (hC : 0 < m.length)
    (hk : slotKey m (vs.length % m.length) = some k) :
    elemNext? (HashTable.mk m (vs ++ [v])) =
      some (some (((k, vs.length / m.length), v), HashTable.mk m vs)) := by
  unfold elemNext?
  have hemp : (vs ++ [v]).isEmpty = false := by simp
  rw [hemp]
  simp only [Bool.false_eq_true, if_false]
  have hrl : rows_len? (HashTable.mk m (vs ++ [v])) =
      some ((vs.length + 1) / m.length) := by
    unfold rows_len?
    rw [columns_len_mk, values_len_mk, List.length_append]
    rw [if_neg (by omega)]
    rfl
  rw [hrl]
  simp only [List.getLast?_concat, List.dropLast_concat]
  have hcols : columns_len (HashTable.mk m (vs ++ [v])) = m.length := rfl
  have hvl : values_len (HashTable.mk m (vs ++ [v])) = vs.length + 1 := by
    unfold values_len
    simp
  rw [hcols, hvl, hk]
  have hrow : (if vs.length + 1 = m.length * ((vs.length + 1) / m.length)
      then (vs.length + 1) / m.length - 1 else (vs.length + 1) / m.length) =
      vs.length / m.length := by
    have := row_idx_eq (vs.length + 1) m.length hC (by omega)
    simpa using this
  rw [hrow]

/-- Claim C8: on a table with at least one column whose reverse slot lookup
succeeds for every slot (as the invariants guarantee), the element-wise
reverse iterator yields exactly `values_len` items, the `n`-th (0-based)
being the buffer value at position `p = values_len - 1 - n` paired with the
coordinate (key found at slot `p % columns_len`, row `p / columns_len`): it
walks from the last row and last slot toward the first. -/
theorem c8_elem_iter_reverse [DecidableEq K] (t : HashTable K V)
    (hC : 0 < columns_len t)
    (hcov : ∀ i, i < columns_len t →
      (slotKey t.indices_table i).isSome = true) :
    ∃ l, elemIter? t = some l ∧ l.length = values_len t ∧
      ∀ n, n < values_len t →
        ∃ k v,
          slotKey t.indices_table
            ((values_len t - 1 - n) % columns_len t) = some k ∧
          t.values_vector.get? (values_len t - 1 - n) = some v ∧
          l.get? n = some ((k, (values_len t - 1 - n) / columns_len t), v) := by
  obtain ⟨m, vs⟩ := t
  have hCm : 0 < m.length := hC
  have hcovm : ∀ i, i < m.length → (slotKey m i).isSome = true := hcov
  clear hC hcov
  induction vs using List.reverseRecOn with
  | nil =>
    refine ⟨[], rfl, rfl, ?_⟩
    intro n hn
    exact absurd hn (by simp [values_len] at hn ⊢)
  | append_singleton vs v ih =>
    obtain ⟨l', hl', hlen', hpos'⟩ := ih
    have hmod : vs.length % m.length < m.length := Nat.mod_lt _ hCm
    obtain ⟨k, hk⟩ := Option.isSome_iff_exists.mp
      (hcovm (vs.length % m.length) hmod)
    have hstep := elemNext_concat m vs v k hCm hk
    have hvl : values_len (HashTable.mk m (vs ++ [v])) = vs.length + 1 := by
      unfold values_len
      simp
    have haux : elemIterAux (vs.length + 1) (HashTable.mk m (vs ++ [v])) =
        (elemIterAux vs.length (HashTable.mk m vs)).map
          (fun l => ((k, vs.length / m.length), v) :: l) := by
      rw [elemIterAux, hstep]
    have hvl' : values_len (HashTable.mk m vs) = vs.length := rfl
    refine ⟨((k, vs.length / m.length), v) :: l', ?_, ?_, ?_⟩
    · unfold elemIter?
      rw [hvl, haux]
      unfold elemIter? at hl'
      rw [hvl'] at hl'
      rw [hl']
      rfl
    · rw [hvl]
      simp [hlen', hvl']
    · intro n hn
      rw [hvl] at hn ⊢
      cases n with
      | zero =>
        refine ⟨k, v, ?_, ?_, rfl⟩
        · have hp : vs.length + 1 - 1 - 0 = vs.length := by omega
          rw [hp]
          exact hk
        · have hp : vs.length + 1 - 1 - 0 = vs.length := by omega
          rw [hp]
          exact List.get?_concat_length vs v
      | succ j =>
        have hj : j < vs.length := by omega
        rw [hvl'] at hpos'
        obtain ⟨k', v', hk', hv', hl'j⟩ := hpos' j hj
        have hp : vs.length + 1 - 1 - (j + 1) = vs.length - 1 - j := by omega
        rw [hp]
        refine ⟨k', v', hk', ?_, ?_⟩
        · have hplt : vs.length - 1 - j < vs.length := by omega
          rw [List.get?_append hplt]
          exact hv'
        · rw [List.get?_cons_succ]
          exact hl'j

/-- Witness for C8: the 2-column table with keys `10 ↦ slot 0`,
`11 ↦ slot 1` and buffer `[1,2,3,4]` (2 rows) is iterated as
`((11,1),4), ((10,1),3), ((11,0),2), ((10,0),1)`. -/
theorem c8_witness :
    ∃ l, elemIter? (HashTable.mk [((10:Nat),0),(11,1)] [(1:Nat),2,3,4]) = some l ∧
      l.length = values_len (HashTable.mk [((10:Nat),0),(11,1)] [(1:Nat),2,3,4]) ∧
      ∀ n, n < values_len (HashTable.mk [((10:Nat),0),(11,1)] [(1:Nat),2,3,4]) →
        ∃ k v,
          slotKey [((10:Nat),0),(11,1)]
            ((values_len (HashTable.mk [((10:Nat),0),(11,1)] [(1:Nat),2,3,4]) - 1 - n) %
              columns_len (HashTable.mk [((10:Nat),0),(11,1)] [(1:Nat),2,3,4])) = some k ∧
          List.get? [(1:Nat),2,3,4]
            (values_len (HashTable.mk [((10:Nat),0),(11,1)] [(1:Nat),2,3,4]) - 1 - n) =
            some v ∧
          l.get? n = some ((k,
            (values_len (HashTable.mk [((10:Nat),0),(11,1)] [(1:Nat),2,3,4]) - 1 - n) /
              columns_len (HashTable.mk [((10:Nat),0),(11,1)] [(1:Nat),2,3,4])), v) :=
  c8_elem_iter_reverse (HashTable.mk [((10:Nat),0),(11,1)] [(1:Nat),2,3,4])
    (by decide) (by decide)

/-! ### Lemmas for push_row with a matching key set -/

theorem slotLe_total (a b : Option Nat) : slotLe a b = true ∨ slotLe b a = true := by
  rcases a with _ | x <;> rcases b with _ | y
  · left; rfl
  · left; rfl
  · right; rfl
  · rcases Nat.le_total x y with h | h
    · left; exact decide_eq_true h
    · right; exact decide_eq_true h

theorem slotLe_trans (a b c : Option Nat) (hab : slotLe a b = true)
    (hbc : slotLe b c = true) : slotLe a c = true := by
  rcases a with _ | x
  · rfl
  · rcases b with _ | y
    · exact absurd hab (by simp [slotLe])
    · rcases c with _ | z
      · exact absurd hbc (by simp [slotLe])
      · have h1 : x ≤ y := of_decide_eq_true hab
        have h2 : y ≤ z := of_decide_eq_true hbc
        exact decide_eq_true (Nat.le_trans h1 h2)

/-- Claim C9: on a table satisfying the invariants, pushing a row whose
keys are exactly the column keys (each once, any order) increments
`rows_len` by one, and `get(k, old_rows_len)` returns the value that was
paired with `k` — the pairs are reordered by slot index before being
appended, so the stored positions are order-independent. -/
theorem c9_push_row_matching [DecidableEq K] (t : HashTable K V)
    (pairs : List (K × V))
    (hkn : KeysNodup t.indices_table)
    (hsc : SlotsContiguous t.indices_table)
    (hC : 0 < columns_len t)
    (hmod : values_len t % columns_len t = 0)
    (hperm : (pairs.map Prod.fst).Perm (t.indices_table.map Prod.fst)) :
    rows_len? (push_row t pairs) =
      some (values_len t / columns_len t + 1) ∧
    ∀ k v, (k, v) ∈ pairs →
      get (push_row t pairs) k (values_len t / columns_len t) = some v := by
  have hall : ∀ p ∈ pairs, ∃ s, hmGet t.indices_table p.1 = some s ∧
      s < columns_len t := by
    intro p hp
    have h1 : p.1 ∈ t.indices_table.map Prod.fst :=
      hperm.mem_iff.mp (List.mem_map_of_mem Prod.fst hp)
    obtain ⟨e, he, hef⟩ := List.mem_map.mp h1
    refine ⟨e.2, ?_, ?_⟩
    · have := hmGet_of_mem_nodup hkn he
      rw [hef] at this
      exact this
    · have h2 : e.2 ∈ t.indices_table.map Prod.snd :=
        List.mem_map_of_mem Prod.snd he
      have h3 : e.2 ∈ List.range t.indices_table.length := hsc.mem_iff.mp h2
      exact List.mem_range.mp h3
  have hsp : (insSort
      (fun a b => slotLe (hmGet t.indices_table a.1) (hmGet t.indices_table b.1))
      pairs).Perm pairs := insSort_perm _ pairs
  have hpw := insSort_pairwise
    (fun a b => slotLe (hmGet t.indices_table a.1) (hmGet t.indices_table b.1))
    (fun a b c hab hbc => slotLe_trans (hmGet t.indices_table a.1)
      (hmGet t.indices_table b.1) (hmGet t.indices_table c.1) hab hbc)
    (fun a b => slotLe_total (hmGet t.indices_table a.1)
      (hmGet t.indices_table b.1)) pairs
  have hfs : ∀ p ∈ pairs,
      hmGet t.indices_table p.1 = some ((hmGet t.indices_table p.1).getD 0) := by
    intro p hp
    obtain ⟨s, hs, _⟩ := hall p hp
    rw [hs]
    rfl
  have hSperm : ((insSort
      (fun a b => slotLe (hmGet t.indices_table a.1) (hmGet t.indices_table b.1))
      pairs).map (fun p => (hmGet t.indices_table p.1).getD 0)).Perm
      (List.range (columns_len t)) := by
    have h1 := hsp.map (fun p => (hmGet t.indices_table p.1).getD 0)
    have h2 : pairs.map (fun p => (hmGet t.indices_table p.1).getD 0) =
        (pairs.map Prod.fst).map (fun k => (hmGet t.indices_table k).getD 0) := by
      rw [List.map_map]
      rfl
    have h3 := hperm.map (fun k => (hmGet t.indices_table k).getD 0)
    have h4 : (t.indices_table.map Prod.fst).map
        (fun k => (hmGet t.indices_table k).getD 0) =
        t.indices_table.map Prod.snd := by
      rw [List.map_map]
      apply List.map_congr_left
      intro e he
      have := hmGet_of_mem_nodup hkn he
      simp only [Function.comp]
      rw [this]
      rfl
    refine h1.trans ?_
    rw [h2]
    refine h3.trans ?_
    rw [h4]
    exact hsc
  have hSsorted : ((insSort
      (fun a b => slotLe (hmGet t.indices_table a.1) (hmGet t.indices_table b.1))
      pairs).map (fun p => (hmGet t.indices_table p.1).getD 0)).Sorted (· ≤ ·) := by
    rw [List.Sorted, List.pairwise_map]
    refine hpw.imp_of_mem ?_
    intro a b ha hb hle
    have hams : a ∈ pairs := hsp.mem_iff.mp ha
    have hbms : b ∈ pairs := hsp.mem_iff.mp hb
    obtain ⟨sa, hsa, _⟩ := hall a hams
    obtain ⟨sb, hsb, _⟩ := hall b hbms
    rw [hsa, hsb] at hle
    rw [hsa, hsb]
    exact of_decide_eq_true hle
  have hrange : (List.range (columns_len t)).Sorted (· ≤ ·) :=
    (List.pairwise_lt_range (columns_len t)).imp Nat.le_of_lt
  have hS : (insSort
      (fun a b => slotLe (hmGet t.indices_table a.1) (hmGet t.indices_table b.1))
      pairs).map (fun p => (hmGet t.indices_table p.1).getD 0) =
      List.range (columns_len t) :=
    List.eq_of_perm_of_sorted hSperm hSsorted hrange
  have hslen : (insSort
      (fun a b => slotLe (hmGet t.indices_table a.1) (hmGet t.indices_table b.1))
      pairs).length = columns_len t := by
    have := congrArg List.length hS
    simpa using this
  have hCL : columns_len t * (values_len t / columns_len t) = values_len t :=
    Nat.mul_div_cancel' (Nat.dvd_of_mod_eq_zero hmod)
  have hpvl : values_len (push_row t pairs) = values_len t + columns_len t := by
    unfold push_row values_len
    simp only [List.length_append, List.length_map]
    rw [hslen]
  have hpcols : columns_len (push_row t pairs) = columns_len t := rfl
  constructor
  · unfold rows_len?
    rw [hpcols, hpvl]
    rw [if_neg (by omega)]
    rw [Nat.add_div_right _ hC]
  · intro k v hkv
    obtain ⟨s, hs, hsC⟩ := hall (k, v) hkv
    have hmem : (k, v) ∈ insSort
        (fun a b => slotLe (hmGet t.indices_table a.1) (hmGet t.indices_table b.1))
        pairs := hsp.mem_iff.mpr hkv
    obtain ⟨⟨i, hilen⟩, hget⟩ := List.mem_iff_get.mp hmem
    have hiC : i < columns_len t := hslen ▸ hilen
    have hgi : (insSort
        (fun a b => slotLe (hmGet t.indices_table a.1) (hmGet t.indices_table b.1))
        pairs).get? i = some (k, v) := by
      rw [List.get?_eq_get hilen, hget]
    have hfi : ((insSort
        (fun a b => slotLe (hmGet t.indices_table a.1) (hmGet t.indices_table b.1))
        pairs).map (fun p => (hmGet t.indices_table p.1).getD 0)).get? i =
        some s := by
      rw [List.get?_map, hgi]
      simp [hs]
    rw [hS, List.get?_range hiC] at hfi
    have his : i = s := by simpa using hfi
    subst his
    unfold get elem_index
    have hm : (push_row t pairs).indices_table = t.indices_table := rfl
    rw [hm, hs]
    simp only [Option.map_some', Option.some_bind]
    have hrs : row_start (push_row t pairs) (values_len t / columns_len t) =
        values_len t := by
      unfold row_start
      rw [hpcols, hCL]
    rw [hrs]
    have hbuf : (push_row t pairs).values_vector =
        t.values_vector ++ (insSort
          (fun a b => slotLe (hmGet t.indices_table a.1) (hmGet t.indices_table b.1))
          pairs).map Prod.snd := rfl
    rw [hbuf]
    have hlen2 : t.values_vector.length ≤ values_len t + i := by
      unfold values_len
      omega
    rw [List.get?_append_right (by unfold values_len at hlen2 ⊢; omega)]
    have hsub : values_len t + i - t.values_vector.length = i := by
      unfold values_len
      omega
    rw [hsub, List.get?_map, hgi]
    rfl

/-- Witness for C9: pushing `[(1, 20), (0, 10)]` onto the empty 2-column
table with keys `0 ↦ slot 0`, `1 ↦ slot 1` yields one row with
`get(0, 0) = 10` and `get(1, 0) = 20` despite the reversed pair order. -/
theorem c9_witness :
    (rows_len? (push_row (HashTable.mk [((0:Nat),0),(1,1)] ([] : List Nat))
        [(1,20),(0,10)]) =
      some (values_len (HashTable.mk [((0:Nat),0),(1,1)] ([] : List Nat)) /
        columns_len (HashTable.mk [((0:Nat),0),(1,1)] ([] : List Nat)) + 1) ∧
    ∀ k v, (k, v) ∈ ([(1,20),(0,10)] : List (Nat × Nat)) →
      get (push_row (HashTable.mk [((0:Nat),0),(1,1)] ([] : List Nat))
          [(1,20),(0,10)]) k
        (values_len (HashTable.mk [((0:Nat),0),(1,1)] ([] : List Nat)) /
          columns_len (HashTable.mk [((0:Nat),0),(1,1)] ([] : List Nat))) =
        some v) :=
  c9_push_row_matching (HashTable.mk [((0:Nat),0),(1,1)] ([] : List Nat))
    [(1,20),(0,10)] (by decide) (by decide) (by decide) (by decide) (by decide)

/-! ### Lemmas for the slot-contiguity invariant -/

theorem hmRemoveEntry_spec [DecidableEq K] {m m1 : List (K × Nat)} {q k : K}
    {s : Nat} (h : hmRemoveEntry m q = some ((k, s), m1)) :
    k = q ∧ ∃ l1 l2, m = l1 ++ (k, s) :: l2 ∧ m1 = l1 ++ l2 := by
  induction m generalizing m1 with
  | nil => exact absurd h (by simp [hmRemoveEntry])
  | cons p rest ih =>
    unfold hmRemoveEntry at h
    by_cases hpq : p.1 = q
    · rw [if_pos hpq] at h
      have h1 := Option.some.inj h
      have hp : p = (k, s) := congrArg Prod.fst h1
      have hr : rest = m1 := congrArg Prod.snd h1
      have hk : k = q := by
        rw [hp] at hpq
        exact hpq
      refine ⟨hk, [], rest, ?_, hr.symm⟩
      rw [hp]
      rfl
    · rw [if_neg hpq] at h
      rcases hrec : hmRemoveEntry rest q with _ | r
      · rw [hrec] at h
        exact absurd h (by simp)
      · obtain ⟨e1, m2⟩ := r
        rw [hrec] at h
        simp only [Option.map_some'] at h
        have h1 := Option.some.inj h
        have he : e1 = (k, s) := congrArg Prod.fst h1
        have hm1 : p :: m2 = m1 := congrArg Prod.snd h1
        rw [he] at hrec
        obtain ⟨hkq, l1, l2, hm, hm2⟩ := ih hrec
        refine ⟨hkq, p :: l1, l2, ?_, ?_⟩
        · rw [List.cons_append, ← hm]
        · rw [← hm1, hm2]
          rfl

theorem erase_decrement_perm (A B : List Nat) (s n : Nat)
    (hperm : (A ++ s :: B).Perm (List.range n)) :
    ((A ++ B).map (fun v => if s < v then v - 1 else v)).Perm
      (List.range (n - 1)) := by
  have hmid : (s :: (A ++ B)).Perm (List.range n) :=
    List.perm_middle.symm.trans hperm
  have hnd : (s :: (A ++ B)).Nodup :=
    hmid.symm.nodup (List.nodup_range n)
  rw [List.nodup_cons] at hnd
  have hmem : ∀ x ∈ A ++ B, x < n ∧ x ≠ s := by
    intro x hx
    refine ⟨List.mem_range.mp (hmid.mem_iff.mp (List.mem_cons_of_mem s hx)), ?_⟩
    intro he
    exact hnd.1 (he ▸ hx)
  have hsn : s < n :=
    List.mem_range.mp (hmid.mem_iff.mp (List.mem_cons_self s (A ++ B)))
  have hndm : ((A ++ B).map (fun v => if s < v then v - 1 else v)).Nodup := by
    refine List.Nodup.map_on ?_ hnd.2
    intro x hx y hy hxy
    obtain ⟨_, hxs⟩ := hmem x hx
    obtain ⟨_, hys⟩ := hmem y hy
    by_cases h1 : s < x
    · by_cases h2 : s < y
      · rw [if_pos h1, if_pos h2] at hxy
        omega
      · rw [if_pos h1, if_neg h2] at hxy
        omega
    · by_cases h2 : s < y
      · rw [if_neg h1, if_pos h2] at hxy
        omega
      · rw [if_neg h1, if_neg h2] at hxy
        omega
  refine (List.perm_ext_iff_of_nodup hndm (List.nodup_range (n - 1))).mpr ?_
  intro z
  rw [List.mem_range, List.mem_map]
  constructor
  · rintro ⟨x, hx, hz⟩
    obtain ⟨hxn, hxs⟩ := hmem x hx
    by_cases h1 : s < x
    · rw [if_pos h1] at hz
      omega
    · rw [if_neg h1] at hz
      omega
  · intro hz
    have hx : ∀ x, x < n → x ≠ s → x ∈ A ++ B := by
      intro x h1 h2
      rcases List.mem_cons.mp (hmid.mem_iff.mpr (List.mem_range.mpr h1))
        with h | h
      · exact absurd h h2
      · exact h
    by_cases hzs : z < s
    · refine ⟨z, hx z (by omega) (by omega), ?_⟩
      rw [if_neg (by omega)]
    · refine ⟨z + 1, hx (z + 1) (by omega) (by omega), ?_⟩
      rw [if_pos (by omega)]
      omega

theorem inv_insert_fresh [DecidableEq K] (t t1 : HashTable K V) (k : K)
    (vs : List V) (hfresh : hmGet t.indices_table k = none)
    (hsucc : insert_column? t k vs = some t1) (hinv : Inv t) : Inv t1 := by
  unfold insert_column? at hsucc
  rcases hrl : rows_len? t with _ | rows
  · rw [hrl] at hsucc
    exact absurd hsucc (by simp)
  · rw [hrl] at hsucc
    have hsucc2 : Option.map
        (fun buf => HashTable.mk (hmInsert t.indices_table k (columns_len t)) buf)
        ((List.range rows).foldlM (fun buf i =>
          match vs.get? i with
          | none => none
          | some v => listInsert? buf ((i + 1) * columns_len t) v)
        t.values_vector) = some t1 := hsucc
    rcases hfold : (List.range rows).foldlM (fun buf i =>
        match vs.get? i with
        | none => none
        | some v => listInsert? buf ((i + 1) * columns_len t) v)
      t.values_vector with _ | buf
    · rw [hfold] at hsucc2
      exact absurd hsucc2 (by simp)
    · rw [hfold] at hsucc2
      simp only [Option.map_some'] at hsucc2
      have ht1 := (Option.some.inj hsucc2).symm
      have hm1 : t1.indices_table = hmInsert t.indices_table k (columns_len t) := by
        rw [ht1]
      have hcont : hmContains t.indices_table k = false := by
        unfold hmContains
        rw [hfresh]
        rfl
      have happ : hmInsert t.indices_table k (columns_len t) =
          t.indices_table ++ [(k, columns_len t)] := by
        unfold hmInsert
        rw [hcont]
        simp
      have hm2 : t1.indices_table = t.indices_table ++ [(k, columns_len t)] := by
        rw [hm1, happ]
      obtain ⟨hkn, hsc⟩ := hinv
      constructor
      · unfold KeysNodup
        rw [hm2, List.map_append, List.nodup_append]
        refine ⟨hkn, by simp, ?_⟩
        intro a ha hb
        have hak : a = k := by simpa using hb
        subst hak
        obtain ⟨e, he, hef⟩ := List.mem_map.mp ha
        exact (hmGet_eq_none.mp hfresh e he) hef
      · unfold SlotsContiguous
        rw [hm2, List.map_append, List.length_append]
        simp only [List.map_cons, List.map_nil, List.length_cons,
          List.length_nil]
        have hr : List.range (t.indices_table.length + 1) =
            List.range t.indices_table.length ++ [t.indices_table.length] :=
          List.range_succ t.indices_table.length
        rw [hr]
        exact hsc.append (List.Perm.refl [columns_len t])

theorem inv_remove_hit [DecidableEq K] (t t1 : HashTable K V) (q k : K)
    (vals : List V)
    (hsucc : remove_column? t q = some (some (k, vals, t1)))
    (hinv : Inv t) : Inv t1 := by
  unfold remove_column? at hsucc
  rcases hre : hmRemoveEntry t.indices_table q with _ | e
  · rw [hre] at hsucc
    exact absurd hsucc (by simp)
  · obtain ⟨⟨k', s⟩, m1⟩ := e
    rw [hre] at hsucc
    simp only [] at hsucc
    by_cases hz : (m1.map (fun p => if s < p.2 then (p.1, p.2 - 1) else p)).length = 0
    · rw [if_pos hz] at hsucc
      exact absurd hsucc (by simp)
    · rw [if_neg hz] at hsucc
      rcases hfold : (List.range (values_len t / columns_len t)).foldlM
          (fun st i =>
            (listRemove? st.2 (i * (m1.map
              (fun p => if s < p.2 then (p.1, p.2 - 1) else p)).length + s)).map
              (fun r => (st.1 ++ [r.1], r.2)))
          (([] : List V), t.values_vector) with _ | st
      · rw [hfold] at hsucc
        exact absurd hsucc (by simp)
      · rw [hfold] at hsucc
        simp only [Option.map_some'] at hsucc
        have h1 := Option.some.inj (Option.some.inj hsucc)
        have ht1 : t1 = HashTable.mk
            (m1.map (fun p => if s < p.2 then (p.1, p.2 - 1) else p)) st.2 := by
          have := congrArg (fun x => x.2.2) h1
          exact this.symm
        obtain ⟨hkq, l1, l2, hm, hm1⟩ := hmRemoveEntry_spec hre
        obtain ⟨hkn, hsc⟩ := hinv
        rw [ht1]
        have hfst : (m1.map
            (fun p => if s < p.2 then (p.1, p.2 - 1) else p)).map Prod.fst =
            m1.map Prod.fst := by
          rw [List.map_map]
          apply List.map_congr_left
          intro a _
          by_cases h : s < a.2
          · simp [h]
          · simp [h]
        have hsnd : (m1.map
            (fun p => if s < p.2 then (p.1, p.2 - 1) else p)).map Prod.snd =
            (m1.map Prod.snd).map (fun v => if s < v then v - 1 else v) := by
          rw [List.map_map, List.map_map]
          apply List.map_congr_left
          intro a _
          by_cases h : s < a.2
          · simp [h]
          · simp [h]
        constructor
        · unfold KeysNodup
          rw [hfst, hm1, List.map_append]
          unfold KeysNodup at hkn
          rw [hm, List.map_append, List.map_cons] at hkn
          have := (List.nodup_middle.mp hkn).of_cons
          exact this
        · unfold SlotsContiguous
          rw [hsnd, List.length_map, hm1, List.map_append]
          have hperm : ((l1.map Prod.snd) ++ s :: (l2.map Prod.snd)).Perm
              (List.range t.indices_table.length) := by
            unfold SlotsContiguous at hsc
            rw [hm, List.map_append, List.map_cons] at hsc
            rw [hm]
            simpa using hsc
          have := erase_decrement_perm (l1.map Prod.snd) (l2.map Prod.snd) s
            t.indices_table.length hperm
          have hlen : t.indices_table.length - 1 =
              (l1 ++ l2).length := by
            rw [hm]
            simp
          rw [hlen] at this
          simpa using this

theorem inv_run [DecidableEq K] {t t' : HashTable K V}
    {ops : List (ColOp K V)} (hrun : RunFresh t ops t') : Inv t → Inv t' := by
  induction hrun with
  | nil t => exact id
  | ins t t1 t2 k vs ops hfresh hsucc _ ih =>
    exact fun hi => ih (inv_insert_fresh t t1 k vs hfresh hsucc hi)
  | delHit t t1 t2 q k vals ops hsucc _ ih =>
    exact fun hi => ih (inv_remove_hit t t1 q k vals hsucc hi)
  | delMiss t t2 q ops _ _ ih => exact ih

/-- Claim C3 (amended): after any panic-free sequence of `insert_column`
and `remove_column` operations starting from a table satisfying the
invariants, in which every inserted key is not already present at the time
of its insertion, the slot indices assigned by the index map are exactly
`{0, ..., columns_len - 1}` (and the keys stay distinct, so no two share a
slot). -/
theorem c3_slot_invariant_preserved [DecidableEq K]
    (t t' : HashTable K V) (ops : List (ColOp K V))
    (hrun : RunFresh t ops t') (hinv : Inv t) :
    SlotsContiguous t'.indices_table :=
  (inv_run hrun hinv).2

/-- Witness for C3: starting from the 1-column table `{0 ↦ 0}` with empty
buffer, inserting fresh key `1` and then removing key `0` runs without
panic and leaves the slot set `{0}` for the single remaining column. -/
theorem c3_witness :
    SlotsContiguous (HashTable.mk [((1:Nat), 0)] ([] : List Nat)).indices_table :=
  c3_slot_invariant_preserved
    (HashTable.mk [((0:Nat), 0)] ([] : List Nat))
    (HashTable.mk [((1:Nat), 0)] ([] : List Nat))
    [ColOp.ins 1 [], ColOp.del 0]
    (RunFresh.ins _ (HashTable.mk [((0:Nat),0),(1,1)] ([] : List Nat)) _ 1 [] _
      (by decide) (by decide)
      (RunFresh.delHit _ (HashTable.mk [((1:Nat), 0)] ([] : List Nat)) _ 0 0 [] _
        (by decide) (RunFresh.nil _)))
    (by decide)

/-! ### Claim theorems: concrete evaluations -/

/-- Claim C1: `remove_row(r)` is claimed to remove exactly the
`columns_len` values at buffer positions `[r*C, (r+1)*C)`. Evaluating the
code on a table with one column (key `0`) and two rows (buffer `[10, 20]`)
shows `remove_row(0)` drains both stored values — the code computes the
drained range from `rows_len` instead of `columns_len` — leaving zero rows
where the claim requires one. -/
theorem c1_remove_row_wrong_stride :
    remove_row? (HashTable.mk [((0:Nat),0)] [(10:Nat),20]) 0 =
      some (some ([10,20], HashTable.mk [((0:Nat),0)] ([]:List Nat))) ∧
    columns_len (HashTable.mk [((0:Nat),0)] [(10:Nat),20]) = 1 := by decide

/-- Claim C2: `insert_column` on a table with one column (key `5`, slot 0)
and two rows (buffer `[1, 2]`), supplying values `[10, 20]` for new key
`6`, is claimed to yield `get(6, 1) = 20`. Evaluating the code: the element
for row 1 is inserted at buffer index `(1+1)*1 = 2`, producing buffer
`[1, 10, 20, 2]`, so `get(6, 1)` returns the old value `2`. -/
theorem c2_insert_column_misplaces :
    insert_column? (HashTable.mk [((5:Nat),0)] [(1:Nat),2]) 6 [10,20] =
      some (HashTable.mk [(5,0),(6,1)] [1,10,20,2]) ∧
    get (HashTable.mk [((5:Nat),0),(6,1)] [(1:Nat),10,20,2]) 6 1 = some 2 := by
  decide

/-- Claim C3, counterexample: inserting a key that is already present
(`insert_column(0, [])` on the table whose only column is key `0` at slot
0) replaces the key's slot with `columns_len = 1`, after which the slot set
is `{1}`, not `{0}` — Invariant 2 is violated by a completed, panic-free
operation of the claimed sequence family. -/
theorem c3_counterexample :
    insert_column? (HashTable.mk [((0:Nat),0)] ([]:List Nat)) 0 [] =
      some (HashTable.mk [(0,1)] []) ∧
    ¬ SlotsContiguous [((0:Nat),1)] := by decide

/-- Claim C5, counterexample: `push_row([(1, 7)])` on a table whose only
column key is `0` supplies a key not in the table, yet the call returns
normally and appends the value `7` to the buffer — it does not panic and
values are appended, contradicting the claimed loud failure. -/
theorem c5_counterexample :
    push_row (HashTable.mk [((0:Nat),0)] ([]:List Nat)) [(1,7)] =
      HashTable.mk [(0,0)] [7] ∧
    (push_row (HashTable.mk [((0:Nat),0)] ([]:List Nat)) [(1,7)]).values_vector
      ≠ [] := by decide

/-- Claim C5, amended: `push_row` performs no validation of the supplied
key set. For every table and every pair list it completes normally, leaves
the column map unchanged, and appends to the buffer exactly the values of
the supplied pairs (in the order given by the stable sort on slot
indices) — on a key mismatch it silently inserts rather than failing. -/
theorem c5_push_row_no_validation [DecidableEq K] (t : HashTable K V)
    (pairs : List (K × V)) :
    (push_row t pairs).indices_table = t.indices_table ∧
    ∃ reordered : List (K × V), reordered.Perm pairs ∧
      (push_row t pairs).values_vector =
        t.values_vector ++ reordered.map Prod.snd := by
  refine ⟨rfl, insSort
    (fun a b => slotLe (hmGet t.indices_table a.1) (hmGet t.indices_table b.1))
    pairs, insSort_perm _ pairs, rfl⟩

/-- Claim C6: `from_column_iter` on the single column `(0, [1])` is claimed
to build a 1-column, 1-row table. Evaluating the code: the first value is
inserted at buffer index `(0+1)*(0+1) = 1` into the still-empty buffer,
which is an out-of-range `Vec::insert` — the constructor panics. -/
theorem c6_from_column_iter_panics :
    from_column_iter? [((0:Nat), [(1:Nat)])] = none := by decide

/-- Claim C10: on any table with `columns_len == 0`, `rows_len` divides by
zero and panics, and so do `get_row`, `get_row_mut` and `remove_row` (for
every requested row index), which call it first; row-wise iteration's
`next` is `remove_row(0)` and is covered by the last conjunct. -/
theorem c10_zero_columns_panics [DecidableEq K] (t : HashTable K V)
    (h : columns_len t = 0) (r : Nat) :
    rows_len? t = none ∧ get_row? t r = none ∧ get_row_mut? t r = none ∧
      remove_row? t r = none := by
  have hr : rows_len? t = none := by simp [rows_len?, h]
  exact ⟨hr, by simp [get_row?, hr], by simp [get_row_mut?, hr],
    by simp [remove_row?, hr]⟩

/-- Claim C4: on a table satisfying the invariants (at least one column,
buffer length a multiple of the column count, slot indices in range),
`get(q, r)` returns `none` exactly when `q` is not a column key or
`r ≥ rows_len`, and otherwise returns the buffer element at
`r * columns_len + slot(q)`; `get_mut` succeeds on exactly the same inputs
and hands out the same buffer position. -/
theorem c4_get_contract [DecidableEq K] (t : HashTable K V) (q : K) (r : Nat)
    (hC : 0 < columns_len t)
    (hmod : values_len t % columns_len t = 0)
    (hslots : ∀ p ∈ t.indices_table, p.2 < columns_len t) :
    (get t q r = none ↔
      (hmGet t.indices_table q = none ∨ values_len t / columns_len t ≤ r)) ∧
    (∀ s, hmGet t.indices_table q = some s →
      r < values_len t / columns_len t →
      get t q r = t.values_vector.get? (r * columns_len t + s)) ∧
    (get_mut_idx t q r = none ↔ get t q r = none) ∧
    (∀ i, get_mut_idx t q r = some i → t.values_vector.get? i = get t q r) := by
  have hvl : values_len t = t.values_vector.length := rfl
  rcases hfind : hmGet t.indices_table q with _ | s
  · have hg : get t q r = none := by simp [get, elem_index, hfind]
    have hgm : get_mut_idx t q r = none := by
      simp [get_mut_idx, elem_index, hfind]
    refine ⟨by simp [hg], ?_, by simp [hgm, hg], ?_⟩
    · intro s hs
      simp [hfind] at hs
    · intro i hi
      rw [hgm] at hi
      simp at hi
  · obtain ⟨p, hpm, _, hps⟩ := hmGet_some_mem hfind
    have hsC : s < columns_len t := hps ▸ hslots p hpm
    have hL : columns_len t * (values_len t / columns_len t) = values_len t :=
      Nat.mul_div_cancel' (Nat.dvd_of_mod_eq_zero hmod)
    have hidx : columns_len t * r + s < values_len t ↔
        r < values_len t / columns_len t := by
      constructor
      · intro h
        by_contra hge
        push_neg at hge
        have h2 : columns_len t * (values_len t / columns_len t) ≤
            columns_len t * r := Nat.mul_le_mul_left _ hge
        omega
      · intro h
        have h2 : columns_len t * (r + 1) ≤
            columns_len t * (values_len t / columns_len t) :=
          Nat.mul_le_mul_left _ h
        rw [Nat.mul_succ] at h2
        omega
    have hg : get t q r = t.values_vector.get? (columns_len t * r + s) := by
      simp [get, elem_index, hfind, row_start]
    have hgm : get_mut_idx t q r =
        if columns_len t * r + s < values_len t
        then some (columns_len t * r + s) else none := by
      simp [get_mut_idx, elem_index, hfind, row_start]
    by_cases hr : r < values_len t / columns_len t
    · have hlt : columns_len t * r + s < values_len t := hidx.mpr hr
      have hlt' : columns_len t * r + s < t.values_vector.length := by omega
      have hg2 : get t q r =
          some (t.values_vector.get ⟨columns_len t * r + s, hlt'⟩) := by
        rw [hg, List.get?_eq_get hlt']
      refine ⟨?_, ?_, ?_, ?_⟩
      · constructor
        · intro h
          rw [hg2] at h
          simp at h
        · rintro (h | h)
          · simp at h
          · exact absurd h (by omega)
      · intro s' hs' _
        have hss : s' = s := (Option.some.inj hs').symm
        subst hss
        rw [hg, Nat.mul_comm]
      · rw [hgm, if_pos hlt, hg2]
        simp
      · intro i hi
        rw [hgm, if_pos hlt] at hi
        have hii : i = columns_len t * r + s := (Option.some.inj hi).symm
        subst hii
        rw [hg]
    · have hge : ¬ (columns_len t * r + s < values_len t) := by
        intro h
        exact hr (hidx.mp h)
      have hgn : get t q r = none := by
        rw [hg, List.get?_eq_none]
        omega
      have hgmn : get_mut_idx t q r = none := by
        rw [hgm, if_neg hge]
      refine ⟨?_, ?_, ?_, ?_⟩
      · exact ⟨fun _ => Or.inr (by omega), fun _ => hgn⟩
      · intro s' _ hr'
        exact absurd hr' hr
      · rw [hgmn, hgn]
        exact iff_of_true rfl rfl
      · intro i hi
        rw [hgmn] at hi
        simp at hi

/-- Witness for C4: on the 2-column, 2-row table with keys `0 ↦ slot 0`,
`1 ↦ slot 1` and buffer `[10, 20, 30, 40]`, the contract instantiated at
`(key 1, row 1)` gives `get = some 40`. -/
theorem c4_witness :
    (get (HashTable.mk [((0:Nat),0),(1,1)] [(10:Nat),20,30,40]) 1 1 = none ↔
      (hmGet [((0:Nat),0),(1,1)] 1 = none ∨
        values_len (HashTable.mk [((0:Nat),0),(1,1)] [(10:Nat),20,30,40]) /
          columns_len (HashTable.mk [((0:Nat),0),(1,1)] [(10:Nat),20,30,40]) ≤ 1)) ∧
    (∀ s, hmGet [((0:Nat),0),(1,1)] 1 = some s →
      1 < values_len (HashTable.mk [((0:Nat),0),(1,1)] [(10:Nat),20,30,40]) /
        columns_len (HashTable.mk [((0:Nat),0),(1,1)] [(10:Nat),20,30,40]) →
      get (HashTable.mk [((0:Nat),0),(1,1)] [(10:Nat),20,30,40]) 1 1 =
        List.get? [(10:Nat),20,30,40]
          (1 * columns_len (HashTable.mk [((0:Nat),0),(1,1)] [(10:Nat),20,30,40]) + s)) ∧
    (get_mut_idx (HashTable.mk [((0:Nat),0),(1,1)] [(10:Nat),20,30,40]) 1 1 = none ↔
      get (HashTable.mk [((0:Nat),0),(1,1)] [(10:Nat),20,30,40]) 1 1 = none) ∧
    (∀ i, get_mut_idx (HashTable.mk [((0:Nat),0),(1,1)] [(10:Nat),20,30,40]) 1 1 =
        some i →
      List.get? [(10:Nat),20,30,40] i =
        get (HashTable.mk [((0:Nat),0),(1,1)] [(10:Nat),20,30,40]) 1 1) :=
  c4_get_contract (HashTable.mk [((0:Nat),0),(1,1)] [(10:Nat),20,30,40]) 1 1
    (by decide) (by decide) (by decide)

/-- Witness for C10: the `Default` table (empty map, empty buffer) has zero
columns, and on it `rows_len`, `get_row(0)`, `get_row_mut(0)` and
`remove_row(0)` all panic. -/
theorem c10_witness :
    rows_len? (HashTable.mk ([] : List (Nat × Nat)) ([] : List Nat)) = none ∧
    get_row? (HashTable.mk ([] : List (Nat × Nat)) ([] : List Nat)) 0 = none ∧
    get_row_mut? (HashTable.mk ([] : List (Nat × Nat)) ([] : List Nat)) 0 = none ∧
    remove_row? (HashTable.mk ([] : List (Nat × Nat)) ([] : List Nat)) 0 = none :=
  c10_zero_columns_panics _ (by decide) 0

end HashTableVerif
